import Mathlib

/-!
Verification of the sequencing core of the Sieve-of-Eratosthenes visualizer
(src/sieve.py).  The Python generator `primeSieve`, the per-tick animation
step `on_draw`, the resize handler `on_key_press`, the coordinate loop of
`drawNumbers` and the launch-time clamping are translated into executable
Lean definitions; Python while/for loops become fuel-indexed structural
recursions, where the fuel is an explicit upper bound on the number of
iterations the loop can perform (every call site passes enough fuel, so the
translation computes exactly what the Python loop computes).
-/

/-- Classification tag emitted by the sieve: the Python generator yields the
string P for primes and C for composites. -/
inductive Kind where
  | P : Kind
  | C : Kind
deriving DecidableEq, Repr

/-- Inner marking loop of `primeSieve`:
`for i in range(prime**2 - 2, LIMIT - 2, prime): sieve[i] = True; yield i + 2, "C"`.
The numpy boolean array `sieve` is represented by the list of indices that
are currently True (`marked`); setting `sieve[i] = True` conses `i` onto it.
Arguments: marked array, loop counter `i`, the range stop, the range step,
and fuel bounding the remaining iterations.  Returns the final marked array
together with the list of emissions of the loop, in emission order. -/
def markLoop : List Nat → Nat → Nat → Nat → Nat → List Nat × List (Nat × Kind)
  | marked, _, _, _, 0 => (marked, [])
  | marked, i, stop, step, fuel + 1 =>
      if i < stop then
        let r := markLoop (i :: marked) (i + step) stop step fuel
        (r.1, (i + 2, Kind.C) :: r.2)
      else (marked, [])

/-- Outer scan of `primeSieve`:
`while (startIndex < LIMIT - 2): if not sieve[startIndex]: ...` with the
increment `startIndex += 1 if startIndex == 0 else 2` at the end of the body.
When position `s` is unmarked the loop emits `(s + 2, P)` and then runs the
marking pass of `markLoop`, whose emissions are interleaved right after the
prime, before the scan resumes.  Fuel bounds the remaining outer iterations;
the inner loop gets fuel `LIMIT - 2`, an upper bound on its range length. -/
def sieveLoop : Nat → Nat → List Nat → Nat → List (Nat × Kind)
  | _, _, _, 0 => []
  | LIMIT, s, marked, fuel + 1 =>
      if s < LIMIT - 2 then
        let next := s + (if s = 0 then 1 else 2)
        if s ∈ marked then
          sieveLoop LIMIT next marked fuel
        else
          let r := markLoop marked ((s + 2) ^ 2 - 2) (LIMIT - 2) (s + 2) (LIMIT - 2)
          ((s + 2, Kind.P) :: r.2) ++ sieveLoop LIMIT next r.1 fuel
      else []

/-- The generator `primeSieve(LIMIT)` of src/sieve.py, materialized into the
list of its emissions in order (the caller `mainWindow.__init__` does exactly
`list(primeSieve(...))`).  It first yields `(1, C)`, then runs the scan on a
fresh all-False array of length `LIMIT - 2`; the outer scan starts at index 0
and performs at most `LIMIT - 2` iterations, which is the fuel passed. -/
def primeSieve (LIMIT : Nat) : List (Nat × Kind) :=
  (1, Kind.C) :: sieveLoop LIMIT 0 [] (LIMIT - 2)

/-- Every emission of the inner marking loop carries the tag C. -/
lemma markLoop_snd_kind : ∀ fuel marked i stop step e,
    e ∈ (markLoop marked i stop step fuel).2 → e.2 = Kind.C := by
  intro fuel
  induction fuel with
  | zero => intro marked i stop step e h; simp [markLoop] at h
  | succ fuel ih =>
      intro marked i stop step e h
      rw [markLoop] at h
      by_cases hi : i < stop
      · simp only [if_pos hi, List.mem_cons] at h
        rcases h with h | h
        · rw [h]
        · exact ih _ _ _ _ _ h
      · simp [if_neg hi] at h

/-- Final marked array of the inner loop: an index is marked afterwards iff
it was marked before or it is hit by the arithmetic progression
`i, i + step, ...` strictly below `stop`.  Needs enough fuel and a positive
step, which every call site provides. -/
lemma markLoop_fst_mem : ∀ fuel marked i stop step, 1 ≤ step → stop - i ≤ fuel →
    ∀ x, x ∈ (markLoop marked i stop step fuel).1 ↔
      (x ∈ marked ∨ (i ≤ x ∧ x < stop ∧ step ∣ (x - i))) := by
  intro fuel
  induction fuel with
  | zero =>
      intro marked i stop step hstep hfuel x
      rw [markLoop]
      constructor
      · intro h; exact Or.inl h
      · rintro (h | ⟨h1, h2, _⟩)
        · exact h
        · omega
  | succ fuel ih =>
      intro marked i stop step hstep hfuel x
      rw [markLoop]
      by_cases hi : i < stop
      · rw [if_pos hi]
        have hrec := ih (i :: marked) (i + step) stop step hstep (by omega) x
        simp only [hrec, List.mem_cons]
        constructor
        · rintro ((hx | hx) | ⟨h1, h2, h3⟩)
          · exact Or.inr ⟨by omega, by omega, by simp [hx]⟩
          · exact Or.inl hx
          · refine Or.inr ⟨by omega, h2, ?_⟩
            have : x - i = (x - (i + step)) + step := by omega
            rw [this]
            exact Nat.dvd_add h3 dvd_rfl
        · rintro (hx | ⟨h1, h2, h3⟩)
          · exact Or.inl (Or.inr hx)
          · by_cases hxi : x = i
            · exact Or.inl (Or.inl hxi)
            · refine Or.inr ⟨?_, h2, ?_⟩
              · rcases h3 with ⟨c, hc⟩
                have hc1 : c ≠ 0 := by rintro rfl; omega
                have : step ≤ x - i := by
                  rw [hc]; exact Nat.le_mul_of_pos_right step (by omega)
                omega
              · have hle : step ≤ x - i := by
                  rcases h3 with ⟨c, hc⟩
                  have hc1 : c ≠ 0 := by rintro rfl; omega
                  rw [hc]; exact Nat.le_mul_of_pos_right step (by omega)
                have : x - (i + step) = (x - i) - step := by omega
                rw [this]
                exact (Nat.dvd_sub' h3 dvd_rfl)
      · rw [if_neg hi]
        constructor
        · intro h; exact Or.inl h
        · rintro (h | ⟨h1, h2, _⟩)
          · exact h
          · omega

/-- Emissions of the inner marking loop: `(v, k)` is emitted iff `k = C` and
`v - 2` is hit by the progression, i.e. `v = i + 2 + step * t` for some `t`
with `v - 2 < stop`. -/
lemma markLoop_snd_mem : ∀ fuel marked i stop step, 1 ≤ step → stop - i ≤ fuel →
    ∀ v k, ((v, k) ∈ (markLoop marked i stop step fuel).2 ↔
      (k = Kind.C ∧ i + 2 ≤ v ∧ v < stop + 2 ∧ step ∣ (v - 2 - i))) := by
  intro fuel
  induction fuel with
  | zero =>
      intro marked i stop step hstep hfuel v k
      rw [markLoop]
      simp only [List.not_mem_nil, false_iff]
      rintro ⟨_, h1, h2, _⟩; omega
  | succ fuel ih =>
      intro marked i stop step hstep hfuel v k
      rw [markLoop]
      by_cases hi : i < stop
      · rw [if_pos hi]
        simp only [List.mem_cons, Prod.mk.injEq]
        rw [ih (i :: marked) (i + step) stop step hstep (by omega) v k]
        constructor
        · rintro (⟨hv, hk⟩ | ⟨hk, h1, h2, h3⟩)
          · exact ⟨hk, by omega, by omega, by simp [hv.symm]⟩
          · refine ⟨hk, by omega, h2, ?_⟩
            have : v - 2 - i = (v - 2 - (i + step)) + step := by omega
            rw [this]
            exact Nat.dvd_add h3 dvd_rfl
        · rintro ⟨hk, h1, h2, h3⟩
          by_cases hvi : v = i + 2
          · exact Or.inl ⟨hvi, hk⟩
          · have hle : step ≤ v - 2 - i := by
              rcases h3 with ⟨c, hc⟩
              have hc1 : c ≠ 0 := by rintro rfl; omega
              rw [hc]; exact Nat.le_mul_of_pos_right step (by omega)
            refine Or.inr ⟨hk, by omega, h2, ?_⟩
            have : v - 2 - (i + step) = (v - 2 - i) - step := by omega
            rw [this]
            exact Nat.dvd_sub' h3 dvd_rfl
      · rw [if_neg hi]
        simp only [List.not_mem_nil, false_iff]
        rintro ⟨_, h1, h2, _⟩; omega

/-- If `p` is at least 2, divides `n` and satisfies `p * p ≤ n`, then `n` is
not prime (it has the nontrivial divisor `p`). -/
lemma not_prime_of_small_factor {p n : Nat} (hp : 2 ≤ p) (hdvd : p ∣ n)
    (hsq : p * p ≤ n) : ¬ Nat.Prime n := by
  intro hn
  rcases (Nat.Prime.eq_one_or_self_of_dvd hn p hdvd) with h1 | h2
  · omega
  · subst h2
    have h3 : p * 2 ≤ p * p := Nat.mul_le_mul_left p hp
    omega

/-- Every composite number at least 2 has a prime divisor whose square does
not exceed it. -/
lemma exists_small_prime_factor {n : Nat} (h2 : 2 ≤ n) (hnp : ¬ Nat.Prime n) :
    ∃ p, Nat.Prime p ∧ p ∣ n ∧ p * p ≤ n := by
  have hne : n ≠ 1 := by omega
  have hp : Nat.Prime n.minFac := Nat.minFac_prime hne
  have hdvd : n.minFac ∣ n := Nat.minFac_dvd n
  refine ⟨n.minFac, hp, hdvd, ?_⟩
  rcases hdvd with ⟨q, hq⟩
  have hq2 : 2 ≤ q := by
    rcases Nat.lt_or_ge q 2 with hlt | hge
    · interval_cases q
      · omega
      · simp at hq; rw [hq] at hnp; exact absurd hp hnp
    · exact hge
  have hqdvd : q ∣ n := ⟨n.minFac, by rw [Nat.mul_comm]; exact hq⟩
  have : n.minFac ≤ q := Nat.minFac_le_of_dvd hq2 hqdvd
  calc n.minFac * n.minFac ≤ n.minFac * q := Nat.mul_le_mul_left _ this
    _ = n := hq.symm

/-- Soundness invariant on the marked array: every marked index corresponds
to a value with a small prime-power-style factor (in particular a composite
value). -/
def sieveSound (marked : List Nat) : Prop :=
  ∀ j ∈ marked, ∃ p, 2 ≤ p ∧ p ∣ (j + 2) ∧ p * p ≤ j + 2

/-- Completeness invariant at outer-scan position `s`: every value below
`LIMIT` that is divisible by a prime `p < s + 2` with `p * p ≤` the value is
already marked. -/
def sieveComplete (LIMIT s : Nat) (marked : List Nat) : Prop :=
  ∀ m p, Nat.Prime p → p ∣ m → p * p ≤ m → m < LIMIT → p < s + 2 → m - 2 ∈ marked

/-- The outer scan only ever sits at position 0 or at an odd position
(`startIndex += 1 if startIndex == 0 else 2`). -/
def okPos (s : Nat) : Prop := s = 0 ∨ s % 2 = 1

/-- A prime other than 2 is odd. -/
lemma prime_odd_of_ne_two {p : Nat} (hp : Nat.Prime p) (hne : p ≠ 2) : p % 2 = 1 := by
  rcases Nat.mod_two_eq_zero_or_one p with h | h
  · exfalso
    have h2 : (2 : Nat) ∣ p := Nat.dvd_of_mod_eq_zero h
    rcases (Nat.Prime.eq_one_or_self_of_dvd hp 2 h2) with h1 | h1
    · omega
    · exact hne h1.symm
  · exact h

/-- If position `s` is marked and the array is sound, the value `s + 2` is
not prime. -/
lemma not_prime_of_marked {marked : List Nat} {s : Nat} (hs : sieveSound marked)
    (hm : s ∈ marked) : ¬ Nat.Prime (s + 2) := by
  rcases hs s hm with ⟨p, hp2, hpd, hpp⟩
  exact not_prime_of_small_factor hp2 hpd hpp

/-- The invariants are preserved by one outer-scan step, in both the
skip branch (position already marked) and the marking branch. -/
lemma inv_preserved_skip {LIMIT s : Nat} {marked : List Nat}
    (hpos : okPos s) (hsound : sieveSound marked)
    (hcomp : sieveComplete LIMIT s marked) (hm : s ∈ marked) :
    okPos (s + (if s = 0 then 1 else 2)) ∧
      sieveComplete LIMIT (s + (if s = 0 then 1 else 2)) marked := by
  have hs0 : s ≠ 0 := by
    rintro rfl
    rcases hsound 0 hm with ⟨p, hp2, hpd, hpp⟩
    have := Nat.le_of_dvd (by omega) hpd
    nlinarith
  rw [if_neg hs0]
  have hodd : s % 2 = 1 := by rcases hpos with h | h; omega; exact h
  refine ⟨Or.inr (by omega), ?_⟩
  intro m p hp hpd hpp hml hps
  rcases Nat.lt_or_ge p (s + 2) with hlt | hge
  · exact hcomp m p hp hpd hpp hml hlt
  · exfalso
    have hp2 : p = s + 2 ∨ p = s + 3 := by omega
    rcases hp2 with h | h
    · rw [h] at hp
      exact not_prime_of_marked hsound hm hp
    · have : p % 2 = 0 := by omega
      have h2 : p ≠ 2 := by omega
      have := prime_odd_of_ne_two hp h2
      omega

/-- Invariant preservation for the marking branch: after emitting `s + 2` as
prime and running its marking pass, soundness and completeness hold at the
next position. -/
lemma inv_preserved_mark {LIMIT s : Nat} {marked : List Nat}
    (hpos : okPos s) (hsound : sieveSound marked)
    (hcomp : sieveComplete LIMIT s marked) (hlt : s < LIMIT - 2) :
    okPos (s + (if s = 0 then 1 else 2)) ∧
      sieveSound (markLoop marked ((s + 2) ^ 2 - 2) (LIMIT - 2) (s + 2) (LIMIT - 2)).1 ∧
      sieveComplete LIMIT (s + (if s = 0 then 1 else 2))
        (markLoop marked ((s + 2) ^ 2 - 2) (LIMIT - 2) (s + 2) (LIMIT - 2)).1 := by
  have hstep : 1 ≤ s + 2 := by omega
  have hfuel : (LIMIT - 2) - ((s + 2) ^ 2 - 2) ≤ LIMIT - 2 := by omega
  have hmem := markLoop_fst_mem (LIMIT - 2) marked ((s + 2) ^ 2 - 2) (LIMIT - 2) (s + 2)
    hstep hfuel
  have hpow : (s + 2) ^ 2 = (s + 2) * (s + 2) := by ring
  constructor
  · rcases hpos with h | h
    · rw [if_pos h]; exact Or.inr (by omega)
    · have : s ≠ 0 := by omega
      rw [if_neg this]; exact Or.inr (by omega)
  constructor
  · intro j hj
    rcases (hmem j).mp hj with hold | ⟨h1, h2, h3⟩
    · exact hsound j hold
    · refine ⟨s + 2, by omega, ?_, by omega⟩
      have hd1 : (s + 2) ∣ (j - ((s + 2) ^ 2 - 2)) := h3
      have hd2 : (s + 2) ∣ (s + 2) * (s + 2) := Dvd.intro _ rfl
      have hj2 : j + 2 = (j - ((s + 2) ^ 2 - 2)) + (s + 2) * (s + 2) := by
        rw [hpow] at h1 ⊢
        have h4 : 4 ≤ (s + 2) * (s + 2) := by nlinarith
        omega
      rw [hj2]
      exact Nat.dvd_add hd1 hd2
  · intro m p hp hpd hpp hml hps
    rcases Nat.lt_or_ge p (s + 2) with hplt | hpge
    · exact (hmem (m - 2)).mpr (Or.inl (hcomp m p hp hpd hpp hml hplt))
    · have hpeq : p = s + 2 := by
        by_contra hne
        have hodd2 : p = s + 3 := by
          by_cases hz : s = 0
          · subst hz; rw [if_pos rfl] at hps; omega
          · rw [if_neg hz] at hps; omega
        rcases hpos with h | h
        · subst h
          rw [if_pos rfl] at hps
          omega
        · have : p % 2 = 0 := by omega
          have h2 : p ≠ 2 := by omega
          have := prime_odd_of_ne_two hp h2
          omega
      subst hpeq
      refine (hmem (m - 2)).mpr (Or.inr ⟨?_, ?_, ?_⟩)
      · rw [hpow]; omega
      · have : 4 ≤ (s + 2) * (s + 2) := by nlinarith
        omega
      · have hd2 : (s + 2) ∣ (s + 2) * (s + 2) := Dvd.intro _ rfl
        have heq : m - 2 - ((s + 2) ^ 2 - 2) = m - (s + 2) * (s + 2) := by
          rw [hpow]
          have : 4 ≤ (s + 2) * (s + 2) := by nlinarith
          omega
        rw [heq]
        exact Nat.dvd_sub' hpd hd2

/-- Every emission of the outer scan has a value in `[2, LIMIT - 1]`. -/
lemma sieveLoop_range : ∀ fuel LIMIT s marked v k,
    (v, k) ∈ sieveLoop LIMIT s marked fuel → 2 ≤ v ∧ v < LIMIT := by
  intro fuel
  induction fuel with
  | zero => intro LIMIT s marked v k h; simp [sieveLoop] at h
  | succ fuel ih =>
      intro LIMIT s marked v k h
      rw [sieveLoop] at h
      by_cases hs : s < LIMIT - 2
      · rw [if_pos hs] at h
        by_cases hm : s ∈ marked
        · rw [if_pos hm] at h
          exact ih _ _ _ _ _ h
        · rw [if_neg hm] at h
          simp only [List.cons_append, List.mem_cons, List.mem_append] at h
          rcases h with h | h | h
          · rcases Prod.mk.injEq .. ▸ h with ⟨h1, _⟩
            omega
          · have := (markLoop_snd_mem (LIMIT - 2) marked ((s + 2) ^ 2 - 2) (LIMIT - 2)
              (s + 2) (by omega) (by omega) v k).mp h
            omega
          · exact ih _ _ _ _ _ h
      · rw [if_neg hs] at h
        simp at h

/-- Every C emission of the outer scan has a divisor `p` with
`2 ≤ p` and `p * p ≤ v` (hence is composite). -/
lemma sieveLoop_C_composite : ∀ fuel LIMIT s marked v,
    (v, Kind.C) ∈ sieveLoop LIMIT s marked fuel →
    ∃ p, 2 ≤ p ∧ p ∣ v ∧ p * p ≤ v := by
  intro fuel
  induction fuel with
  | zero => intro LIMIT s marked v h; simp [sieveLoop] at h
  | succ fuel ih =>
      intro LIMIT s marked v h
      rw [sieveLoop] at h
      by_cases hs : s < LIMIT - 2
      · rw [if_pos hs] at h
        by_cases hm : s ∈ marked
        · rw [if_pos hm] at h
          exact ih _ _ _ _ h
        · rw [if_neg hm] at h
          simp only [List.cons_append, List.mem_cons, List.mem_append] at h
          rcases h with h | h | h
          · exact absurd (Prod.mk.injEq .. ▸ h).2 (by simp)
          · have hh := (markLoop_snd_mem (LIMIT - 2) marked ((s + 2) ^ 2 - 2) (LIMIT - 2)
              (s + 2) (by omega) (by omega) v Kind.C).mp h
            rcases hh with ⟨_, h1, h2, h3⟩
            refine ⟨s + 2, by omega, ?_, ?_⟩
            · have hd2 : (s + 2) ∣ (s + 2) * (s + 2) := Dvd.intro _ rfl
              have hpow : (s + 2) ^ 2 = (s + 2) * (s + 2) := by ring
              rw [hpow] at h1 h3
              have h4 : 4 ≤ (s + 2) * (s + 2) := by nlinarith
              have hv : v = (v - 2 - ((s + 2) * (s + 2) - 2)) + (s + 2) * (s + 2) := by
                omega
              rw [hv]
              exact Nat.dvd_add h3 hd2
            · have hpow : (s + 2) ^ 2 = (s + 2) * (s + 2) := by ring
              rw [hpow] at h1
              omega
          · exact ih _ _ _ _ h
      · rw [if_neg hs] at h
        simp at h

/-- P soundness: under the scan invariants, every value the scan emits with
tag P is prime. -/
lemma sieveLoop_P_prime : ∀ fuel LIMIT s marked, LIMIT - 2 - s ≤ fuel →
    okPos s → sieveSound marked → sieveComplete LIMIT s marked →
    ∀ v, (v, Kind.P) ∈ sieveLoop LIMIT s marked fuel → Nat.Prime v := by
  intro fuel
  induction fuel with
  | zero => intro LIMIT s marked _ _ _ _ v h; simp [sieveLoop] at h
  | succ fuel ih =>
      intro LIMIT s marked hfuel hpos hsound hcomp v h
      rw [sieveLoop] at h
      by_cases hs : s < LIMIT - 2
      · rw [if_pos hs] at h
        by_cases hm : s ∈ marked
        · rw [if_pos hm] at h
          rcases inv_preserved_skip hpos hsound hcomp hm with ⟨hpos2, hcomp2⟩
          refine ih LIMIT _ marked ?_ hpos2 hsound hcomp2 v h
          split <;> omega
        · rw [if_neg hm] at h
          simp only [List.cons_append, List.mem_cons, List.mem_append] at h
          rcases h with h | h | h
          · rcases Prod.mk.injEq .. ▸ h with ⟨h1, _⟩
            subst h1
            by_contra hnp
            rcases exists_small_prime_factor (by omega) hnp with ⟨q, hq, hqd, hqs⟩
            have hq2 : 2 ≤ q := hq.two_le
            have hql : q < s + 2 := by
              have : 2 * q ≤ q * q := Nat.mul_le_mul_right q hq2
              omega
            exact hm (hcomp (s + 2) q hq hqd hqs (by omega) hql)
          · have := markLoop_snd_kind (LIMIT - 2) marked ((s + 2) ^ 2 - 2) (LIMIT - 2)
              (s + 2) (v, Kind.P) h
            simp at this
          · rcases inv_preserved_mark hpos hsound hcomp hs with ⟨hpos2, hsound2, hcomp2⟩
            refine ih LIMIT _ _ ?_ hpos2 hsound2 hcomp2 v h
            split <;> omega
      · rw [if_neg hs] at h
        simp at h

/-- P completeness: under the scan invariants every prime in
`[s + 2, LIMIT - 1]` is emitted with tag P. -/
lemma sieveLoop_P_complete : ∀ fuel LIMIT s marked, LIMIT - 2 - s ≤ fuel →
    okPos s → sieveSound marked → sieveComplete LIMIT s marked →
    ∀ p, Nat.Prime p → s + 2 ≤ p → p < LIMIT →
    (p, Kind.P) ∈ sieveLoop LIMIT s marked fuel := by
  intro fuel
  induction fuel with
  | zero =>
      intro LIMIT s marked hfuel _ _ _ p _ hp1 hp2
      omega
  | succ fuel ih =>
      intro LIMIT s marked hfuel hpos hsound hcomp p hp hp1 hp2
      rw [sieveLoop]
      have hs : s < LIMIT - 2 := by omega
      rw [if_pos hs]
      have hnext : p = s + 2 ∨ s + (if s = 0 then 1 else 2) + 2 ≤ p := by
        by_cases hz : s = 0
        · subst hz
          rw [if_pos rfl]
          rcases Nat.lt_or_ge p 3 with h | h
          · left; omega
          · right; omega
        · rw [if_neg hz]
          rcases hpos with h | h
          · omega
          · by_cases hps : p = s + 2
            · left; exact hps
            · right
              have hp3 : p ≠ s + 3 := by
                intro heq
                have h2 : p ≠ 2 := by omega
                have := prime_odd_of_ne_two hp h2
                omega
              omega
      by_cases hm : s ∈ marked
      · rw [if_pos hm]
        rcases hnext with hcase | hcase
        · exfalso
          exact not_prime_of_marked hsound hm (hcase ▸ hp)
        · rcases inv_preserved_skip hpos hsound hcomp hm with ⟨hpos2, hcomp2⟩
          refine ih LIMIT _ marked ?_ hpos2 hsound hcomp2 p hp hcase hp2
          split <;> omega
      · rw [if_neg hm]
        rcases hnext with hcase | hcase
        · subst hcase
          simp
        · simp only [List.cons_append, List.mem_cons, List.mem_append]
          right; right
          rcases inv_preserved_mark hpos hsound hcomp hs with ⟨hpos2, hsound2, hcomp2⟩
          refine ih LIMIT _ _ ?_ hpos2 hsound2 hcomp2 p hp hcase hp2
          split <;> omega

/-- C completeness: under the scan invariants, every value below `LIMIT`
with a prime divisor `p ≥ s + 2` satisfying `p * p ≤ m` is emitted
with tag C. -/
lemma sieveLoop_C_complete : ∀ fuel LIMIT s marked, LIMIT - 2 - s ≤ fuel →
    okPos s → sieveSound marked → sieveComplete LIMIT s marked →
    ∀ m p, Nat.Prime p → p ∣ m → p * p ≤ m → m < LIMIT → s + 2 ≤ p →
    (m, Kind.C) ∈ sieveLoop LIMIT s marked fuel := by
  intro fuel
  induction fuel with
  | zero =>
      intro LIMIT s marked hfuel _ _ _ m p hp hpd hpp hml hps
      have hpm : p ≤ m := Nat.le_of_dvd (by nlinarith [hp.two_le]) hpd
      omega
  | succ fuel ih =>
      intro LIMIT s marked hfuel hpos hsound hcomp m p hp hpd hpp hml hps
      have hp2 : 2 ≤ p := hp.two_le
      have hpm : p ≤ m := Nat.le_of_dvd (by nlinarith) hpd
      have hmp : s + 4 ≤ m := by nlinarith
      rw [sieveLoop]
      have hs : s < LIMIT - 2 := by omega
      rw [if_pos hs]
      have hnext : p = s + 2 ∨ s + (if s = 0 then 1 else 2) + 2 ≤ p := by
        by_cases hz : s = 0
        · subst hz
          rw [if_pos rfl]
          rcases Nat.lt_or_ge p 3 with h | h
          · left; omega
          · right; omega
        · rw [if_neg hz]
          rcases hpos with h | h
          · omega
          · by_cases hps2 : p = s + 2
            · left; exact hps2
            · right
              have hp3 : p ≠ s + 3 := by
                intro hheq
                have h2 : p ≠ 2 := by omega
                have := prime_odd_of_ne_two hp h2
                omega
              omega
      by_cases hm2 : s ∈ marked
      · rw [if_pos hm2]
        rcases hnext with hcase | hcase
        · exfalso
          exact not_prime_of_marked hsound hm2 (hcase ▸ hp)
        · rcases inv_preserved_skip hpos hsound hcomp hm2 with ⟨hpos2, hcomp2⟩
          refine ih LIMIT _ marked ?_ hpos2 hsound hcomp2 m p hp hpd hpp hml hcase
          split <;> omega
      · rw [if_neg hm2]
        rcases hnext with hcase | hcase
        · subst hcase
          simp only [List.cons_append, List.mem_cons, List.mem_append]
          right; left
          refine (markLoop_snd_mem (LIMIT - 2) marked ((s + 2) ^ 2 - 2) (LIMIT - 2)
            (s + 2) (by omega) (by omega) m Kind.C).mpr ⟨rfl, ?_, ?_, ?_⟩
          · have hpow : (s + 2) ^ 2 = (s + 2) * (s + 2) := by ring
            rw [hpow]
            omega
          · omega
          · have hpow : (s + 2) ^ 2 = (s + 2) * (s + 2) := by ring
            rw [hpow]
            have hd2 : (s + 2) ∣ (s + 2) * (s + 2) := Dvd.intro _ rfl
            have heq : m - 2 - ((s + 2) * (s + 2) - 2) = m - (s + 2) * (s + 2) := by
              have h4 : 4 ≤ (s + 2) * (s + 2) := by nlinarith
              omega
            rw [heq]
            exact Nat.dvd_sub' hpd hd2
        · simp only [List.cons_append, List.mem_cons, List.mem_append]
          right; right
          rcases inv_preserved_mark hpos hsound hcomp hs with ⟨hpos2, hsound2, hcomp2⟩
          refine ih LIMIT _ _ ?_ hpos2 hsound2 hcomp2 m p hp hpd hpp hml hcase
          split <;> omega

/-- The list of values an emission list tags with P, in emission order. -/
def pValues (L : List (Nat × Kind)) : List Nat :=
  L.filterMap (fun e => if e.2 = Kind.P then some e.1 else none)

/-- Membership in `pValues` is exactly emission with tag P. -/
lemma mem_pValues {L : List (Nat × Kind)} {v : Nat} :
    v ∈ pValues L ↔ (v, Kind.P) ∈ L := by
  unfold pValues
  rw [List.mem_filterMap]
  constructor
  · rintro ⟨⟨a, k⟩, hmem, hf⟩
    cases k <;> simp_all
  · intro h
    exact ⟨(v, Kind.P), h, by simp⟩

/-- Every P emission of the scan from position `s` has value at least
`s + 2`. -/
lemma sieveLoop_P_lb : ∀ fuel LIMIT s marked v,
    (v, Kind.P) ∈ sieveLoop LIMIT s marked fuel → s + 2 ≤ v := by
  intro fuel
  induction fuel with
  | zero => intro LIMIT s marked v h; simp [sieveLoop] at h
  | succ fuel ih =>
      intro LIMIT s marked v h
      rw [sieveLoop] at h
      by_cases hs : s < LIMIT - 2
      · rw [if_pos hs] at h
        by_cases hm : s ∈ marked
        · rw [if_pos hm] at h
          have := ih _ _ _ _ h
          split at this <;> omega
        · rw [if_neg hm] at h
          simp only [List.cons_append, List.mem_cons, List.mem_append] at h
          rcases h with h | h | h
          · rcases Prod.mk.injEq .. ▸ h with ⟨h1, _⟩
            omega
          · have := markLoop_snd_kind (LIMIT - 2) marked ((s + 2) ^ 2 - 2) (LIMIT - 2)
              (s + 2) (v, Kind.P) h
            simp at this
          · have := ih _ _ _ _ h
            split at this <;> omega
      · rw [if_neg hs] at h
        simp at h

/-- The P emissions of the scan appear in strictly increasing order. -/
lemma sieveLoop_P_sorted : ∀ fuel LIMIT s marked,
    List.Pairwise (fun a b => a < b) (pValues (sieveLoop LIMIT s marked fuel)) := by
  intro fuel
  induction fuel with
  | zero => intro LIMIT s marked; simp [sieveLoop, pValues]
  | succ fuel ih =>
      intro LIMIT s marked
      rw [sieveLoop]
      by_cases hs : s < LIMIT - 2
      · rw [if_pos hs]
        by_cases hm : s ∈ marked
        · rw [if_pos hm]
          exact ih _ _ _
        · rw [if_neg hm]
          have hinner : pValues (markLoop marked ((s + 2) ^ 2 - 2) (LIMIT - 2)
              (s + 2) (LIMIT - 2)).2 = [] := by
            rw [List.eq_nil_iff_forall_not_mem]
            intro v hv
            have := markLoop_snd_kind (LIMIT - 2) marked ((s + 2) ^ 2 - 2) (LIMIT - 2)
              (s + 2) (v, Kind.P) (mem_pValues.mp hv)
            simp at this
          simp only [List.cons_append, pValues, List.filterMap_cons, List.filterMap_append,
            reduceIte, if_true]
          rw [List.pairwise_cons]
          constructor
          · intro b hb
            rw [List.mem_append] at hb
            rcases hb with hb | hb
            · rw [show List.filterMap (fun e => if e.2 = Kind.P then some e.1 else none)
                  (markLoop marked ((s + 2) ^ 2 - 2) (LIMIT - 2) (s + 2) (LIMIT - 2)).2
                  = pValues (markLoop marked ((s + 2) ^ 2 - 2) (LIMIT - 2) (s + 2)
                    (LIMIT - 2)).2 from rfl, hinner] at hb
              simp at hb
            · have := sieveLoop_P_lb fuel LIMIT _ _ b (mem_pValues.mp hb)
              split at this <;> omega
          · rw [List.pairwise_append]
            refine ⟨?_, ih _ _ _, ?_⟩
            · rw [show List.filterMap (fun e => if e.2 = Kind.P then some e.1 else none)
                  (markLoop marked ((s + 2) ^ 2 - 2) (LIMIT - 2) (s + 2) (LIMIT - 2)).2
                  = pValues (markLoop marked ((s + 2) ^ 2 - 2) (LIMIT - 2) (s + 2)
                    (LIMIT - 2)).2 from rfl, hinner]
              simp
            · intro a ha
              rw [show List.filterMap (fun e => if e.2 = Kind.P then some e.1 else none)
                  (markLoop marked ((s + 2) ^ 2 - 2) (LIMIT - 2) (s + 2) (LIMIT - 2)).2
                  = pValues (markLoop marked ((s + 2) ^ 2 - 2) (LIMIT - 2) (s + 2)
                    (LIMIT - 2)).2 from rfl, hinner] at ha
              simp at ha
      · rw [if_neg hs]
        simp [pValues]

/-- The initial scan state (position 0, empty marked array) satisfies all
three invariants. -/
lemma init_invariants (LIMIT : Nat) :
    okPos 0 ∧ sieveSound [] ∧ sieveComplete LIMIT 0 [] := by
  refine ⟨Or.inl rfl, ?_, ?_⟩
  · intro j hj; simp at hj
  · intro m p hp _ _ _ hps
    have := hp.two_le
    omega

/-- Coverage: for `limit ≥ 2` every integer of `[1, limit - 1]` appears among
the emitted values of `primeSieve limit`. -/
lemma primeSieve_covers : ∀ LIMIT, 2 ≤ LIMIT → ∀ v, 1 ≤ v → v < LIMIT →
    v ∈ (primeSieve LIMIT).map Prod.fst := by
  intro LIMIT hL v h1 h2
  rcases init_invariants LIMIT with ⟨hpos, hsound, hcomp⟩
  rw [List.mem_map]
  by_cases hv1 : v = 1
  · subst hv1
    exact ⟨(1, Kind.C), by simp [primeSieve], rfl⟩
  · have h2v : 2 ≤ v := by omega
    by_cases hp : Nat.Prime v
    · refine ⟨(v, Kind.P), ?_, rfl⟩
      unfold primeSieve
      exact List.mem_cons_of_mem _
        (sieveLoop_P_complete (LIMIT - 2) LIMIT 0 [] (by omega)
          hpos hsound hcomp v hp (by omega) (by omega))
    · rcases exists_small_prime_factor h2v hp with ⟨p, hpp, hpd, hps⟩
      refine ⟨(v, Kind.C), ?_, rfl⟩
      unfold primeSieve
      exact List.mem_cons_of_mem _
        (sieveLoop_C_complete (LIMIT - 2) LIMIT 0 [] (by omega)
          hpos hsound hcomp v p hpp hpd hps (by omega) (hpp.two_le))

/-- C3: every pair `(v, kind)` emitted by `primeSieve(limit)`, for any
`limit ≥ 2`, is correctly classified: `kind = C` iff `v = 1` or `v` has a
divisor other than 1 and itself, and `kind = P` otherwise. -/
theorem c3_classification : ∀ LIMIT, 2 ≤ LIMIT → ∀ v k, (v, k) ∈ primeSieve LIMIT →
    (k = Kind.C ↔ (v = 1 ∨ ∃ d, d ∣ v ∧ d ≠ 1 ∧ d ≠ v)) := by
  intro LIMIT _ v k h
  unfold primeSieve at h
  rw [List.mem_cons] at h
  rcases h with h | h
  · rcases Prod.mk.injEq .. ▸ h with ⟨h1, h2⟩
    subst h1; subst h2
    simp
  · rcases init_invariants LIMIT with ⟨hpos, hsound, hcomp⟩
    cases k
    · have hp := sieveLoop_P_prime (LIMIT - 2) LIMIT 0 [] (by omega) hpos hsound hcomp v h
      refine iff_of_false (by simp) ?_
      rintro (h1 | ⟨d, hd, hd1, hdv⟩)
      · have := hp.two_le; omega
      · rcases hp.eq_one_or_self_of_dvd d hd with h2 | h2
        · exact hd1 h2
        · exact hdv h2
    · rcases sieveLoop_C_composite (LIMIT - 2) LIMIT 0 [] v h with ⟨p, hp2, hpd, hpp⟩
      have h3 : 2 * p ≤ p * p := Nat.mul_le_mul_right p hp2
      exact iff_of_true rfl (Or.inr ⟨p, hpd, by omega, by omega⟩)

/-- Witness for C3 at a concrete emission: `(4, C)` of `primeSieve 10`. -/
theorem c3_classification_witness :
    (Kind.C = Kind.C ↔ (4 = 1 ∨ ∃ d, d ∣ 4 ∧ d ≠ 1 ∧ d ≠ 4)) :=
  c3_classification 10 (by decide) 4 Kind.C (by decide)

/-- C10: for every `limit ≥ 2`, the values `primeSieve limit` emits with tag
P are exactly the primes in `[2, limit - 1]`, in strictly ascending order,
each emitted exactly once. -/
theorem c10_primes_exact : ∀ LIMIT, 2 ≤ LIMIT →
    List.Pairwise (fun a b => a < b) (pValues (primeSieve LIMIT)) ∧
    (∀ v, v ∈ pValues (primeSieve LIMIT) ↔
      (Nat.Prime v ∧ 2 ≤ v ∧ v ≤ LIMIT - 1)) := by
  intro LIMIT hL
  have hhd : pValues (primeSieve LIMIT) = pValues (sieveLoop LIMIT 0 [] (LIMIT - 2)) := by
    simp [primeSieve, pValues]
  rcases init_invariants LIMIT with ⟨hpos, hsound, hcomp⟩
  constructor
  · rw [hhd]
    exact sieveLoop_P_sorted _ _ _ _
  · intro v
    rw [hhd, mem_pValues]
    constructor
    · intro h
      have hp := sieveLoop_P_prime (LIMIT - 2) LIMIT 0 [] (by omega) hpos hsound hcomp v h
      have hr := sieveLoop_range (LIMIT - 2) LIMIT 0 [] v Kind.P h
      exact ⟨hp, by omega, by omega⟩
    · rintro ⟨hp, h2, h3⟩
      exact sieveLoop_P_complete (LIMIT - 2) LIMIT 0 [] (by omega) hpos hsound hcomp v hp
        (by omega) (by omega)

/-- Witness for C10 at `limit = 10`: the P values are sorted and include 7. -/
theorem c10_primes_exact_witness :
    List.Pairwise (fun a b => a < b) (pValues (primeSieve 10)) ∧
    7 ∈ pValues (primeSieve 10) :=
  ⟨(c10_primes_exact 10 (by decide)).1,
    ((c10_primes_exact 10 (by decide)).2 7).mpr ⟨by norm_num, by decide, by decide⟩⟩

/-- Counterexample to C1 as stated: at `size = 4` (`limit = 17`) the value 12
is emitted twice (once in the marking pass of 2 and again in the marking pass
of 3, which re-marks and re-emits it), so the total emission count is 17,
not `size² = 16`. -/
theorem c1_counterexample :
    (1 ≤ 4 ∧ 4 ≤ 18) ∧
    ((primeSieve (4 ^ 2 + 1)).map Prod.fst).count 12 = 2 ∧
    (primeSieve (4 ^ 2 + 1)).length = 17 ∧
    ¬((primeSieve (4 ^ 2 + 1)).length = 4 ^ 2) := by decide

/-- C1 amended: for every size in `[1, 18]`, `primeSieve(size² + 1)` emits
only integers of `[1, size²]` and emits every integer of that range at least
once (values caught by several marking passes are emitted once per pass, so
emissions need not be unique); for `size = 1` only `(1, C)` is emitted and no
sieve scan runs. -/
theorem c1_coverage_amended : ∀ size, 1 ≤ size → size ≤ 18 →
    (∀ v, v ∈ (primeSieve (size ^ 2 + 1)).map Prod.fst ↔ (1 ≤ v ∧ v ≤ size ^ 2)) ∧
    (size = 1 → primeSieve (size ^ 2 + 1) = [(1, Kind.C)]) := by
  intro size hs1 _
  have hsq : 1 ≤ size ^ 2 := Nat.one_le_pow 2 size (by omega)
  constructor
  · intro v
    constructor
    · intro hv
      rcases List.mem_map.mp hv with ⟨⟨a, k⟩, hmem, hfst⟩
      simp only at hfst
      subst hfst
      unfold primeSieve at hmem
      rw [List.mem_cons] at hmem
      rcases hmem with h | h
      · rcases Prod.mk.injEq .. ▸ h with ⟨h1, _⟩
        omega
      · have := sieveLoop_range (size ^ 2 + 1 - 2) (size ^ 2 + 1) 0 [] a k h
        omega
    · rintro ⟨h1, h2⟩
      exact primeSieve_covers (size ^ 2 + 1) (by omega) v h1 (by omega)
  · rintro rfl
    decide

/-- Witness for the amended C1: at `size = 3` the value 9 is emitted, and at
`size = 1` the emission list is exactly `[(1, C)]`. -/
theorem c1_coverage_amended_witness :
    (9 ∈ (primeSieve (3 ^ 2 + 1)).map Prod.fst) ∧
    primeSieve (1 ^ 2 + 1) = [(1, Kind.C)] :=
  ⟨((c1_coverage_amended 3 (by decide) (by decide)).1 9).mpr ⟨by decide, by decide⟩,
    (c1_coverage_amended 1 (by decide) (by decide)).2 rfl⟩

/-- Counterexample to C2 as stated: for `limit = 101` the first ten emissions
are as the claim says, but the emissions following the end of the marking
pass of 2 (index 51 onward) begin `3P, 9C, 12C, 15C`, not `3P, 9C, 15C, 21C`
(12 was already marked by 2 yet is re-emitted by the pass of 3). -/
theorem c2_counterexample :
    (primeSieve 101).take 10 = [(1, Kind.C), (2, Kind.P), (4, Kind.C), (6, Kind.C),
      (8, Kind.C), (10, Kind.C), (12, Kind.C), (14, Kind.C), (16, Kind.C), (18, Kind.C)] ∧
    ((primeSieve 101).drop 51).take 4 =
      [(3, Kind.P), (9, Kind.C), (12, Kind.C), (15, Kind.C)] ∧
    ¬(((primeSieve 101).drop 51).take 4 =
      [(3, Kind.P), (9, Kind.C), (15, Kind.C), (21, Kind.C)]) := by decide

/-- C2 amended: for `limit = 101` the first ten emissions are
`1C, 2P, 4C, 6C, 8C, 10C, 12C, 14C, 16C, 18C` (the multiples of 2 emitted
immediately after 2 is emitted as prime), and the emissions following the end
of the marking pass of 2 begin `3P, 9C, 12C, 15C, 18C, 21C, ...`: every
composite is emitted each time a marking pass marks it, so already-marked
multiples are emitted again rather than skipped. -/
theorem c2_order_amended :
    (primeSieve 101).take 10 = [(1, Kind.C), (2, Kind.P), (4, Kind.C), (6, Kind.C),
      (8, Kind.C), (10, Kind.C), (12, Kind.C), (14, Kind.C), (16, Kind.C), (18, Kind.C)] ∧
    ((primeSieve 101).drop 51).take 6 = [(3, Kind.P), (9, Kind.C), (12, Kind.C),
      (15, Kind.C), (18, Kind.C), (21, Kind.C)] := by decide

/-- Number of padding ticks after the animation completes
(`TIME_AFTER_COMPLETION = 35` in src/sieve.py). -/
def TIME_AFTER_COMPLETION : Nat := 35

/-- `PADDING = [(1, "C") for _ in range(TIME_AFTER_COMPLETION)]`. -/
def PADDING : List (Nat × Kind) := List.replicate TIME_AFTER_COMPLETION (1, Kind.C)

/-- Color constants of src/sieve.py, as RGB triples. -/
def LIGHT_BLUE : Nat × Nat × Nat := (153, 255, 255)

/-- RED color constant of src/sieve.py. -/
def RED : Nat × Nat × Nat := (255, 51, 51)

/-- Observable state of one animation square: its visibility flag and color
(the only square attributes `on_draw` ever changes). -/
structure Square where
  visible : Bool
  color : Nat × Nat × Nat
deriving DecidableEq, Repr

/-- `drawSquares` of src/sieve.py creates `N²` rectangles colored LIGHT_BLUE
with `visible = False` (used both at startup and to reset the animation). -/
def drawSquares (N : Nat) : List Square :=
  List.replicate (N ^ 2) ⟨false, LIGHT_BLUE⟩

/-- Observable state of the playback engine held on `mainWindow`: the grid
size `N`, the materialized animation sequence `data`, the playback position
`currentIndex`, and the square list. -/
structure EngineState where
  N : Nat
  data : List (Nat × Kind)
  currentIndex : Nat
  squares : List Square
deriving DecidableEq, Repr

/-- The color written by `on_draw`:
`LIGHT_BLUE if type == 'C' else RED`. -/
def colorOf (t : Kind) : Nat × Nat × Nat :=
  if t = Kind.C then LIGHT_BLUE else RED

/-- The reveal portion of `on_draw`: reads
`currentNum, type = self.data[self.currentIndex]` and sets
`self.square_list[currentNum - 1]` visible with the matching color.  The
`getD` default is never reached in any run, since `currentIndex` stays
within bounds (Python would raise IndexError otherwise). -/
def revealStep (s : EngineState) : EngineState :=
  let e := s.data.getD s.currentIndex (0, Kind.C)
  { s with squares := s.squares.set (e.1 - 1) ⟨true, colorOf e.2⟩ }

/-- One tick of `on_draw` (the drawing calls themselves have no observable
state): reveal the current square, increment `currentIndex`, and if the data
ran out, reset the index to 0 and recreate all squares invisible via
`drawSquares`. -/
def on_draw (s : EngineState) : EngineState :=
  let s1 := revealStep s
  if s1.currentIndex + 1 = s1.data.length then
    { s1 with currentIndex := 0, squares := drawSquares s1.N }
  else
    { s1 with currentIndex := s1.currentIndex + 1 }

/-- The engine state built by a (re)configuration for grid size `N`:
`currentIndex = 0`, fresh invisible squares, and
`data = list(primeSieve(N**2 + 1)) + list(PADDING)`.  This is the state
`mainWindow.__init__` creates (with `N = 10`) and the state `on_key_press`
installs after a size change. -/
def freshState (N : Nat) : EngineState :=
  ⟨N, primeSieve (N ^ 2 + 1) ++ PADDING, 0, drawSquares N⟩

/-- `on_key_press` of src/sieve.py restricted to the digit keys (the Q key
only closes the window).  The pyglet key symbols `key._1 .. key._9` are the
ASCII codes 49..57, and the handler fires when
`key._1 <= symbol <= key._9 and int(symbol) - 39 != self.N`; it then sets
`N = symbol - 39`, redraws everything (fresh invisible squares), resets
`currentIndex` to 0 and rebuilds `data`. -/
def on_key_press (symbol : Nat) (s : EngineState) : EngineState :=
  if 49 ≤ symbol ∧ symbol ≤ 57 ∧ symbol - 39 ≠ s.N then
    ⟨symbol - 39, primeSieve ((symbol - 39) ^ 2 + 1) ++ PADDING, 0,
      drawSquares (symbol - 39)⟩
  else s

/-- Iterating `on_draw` an exact remaining-sequence count from a valid
position lands on the reset state: index 0 and fresh invisible squares, with
`N` and `data` untouched. -/
lemma on_draw_cycle : ∀ k (s : EngineState), 0 < k →
    s.currentIndex < s.data.length → s.currentIndex + k = s.data.length →
    on_draw^[k] s = ⟨s.N, s.data, 0, drawSquares s.N⟩ := by
  intro k
  induction k with
  | zero => intro s h; omega
  | succ k ih =>
      intro s _ hlt hsum
      rw [Function.iterate_succ_apply]
      by_cases hk : k = 0
      · subst hk
        simp only [Function.iterate_zero, id_eq]
        unfold on_draw revealStep
        simp only
        rw [if_pos (by simpa using hsum)]
      · have hstep : on_draw s =
            { s with currentIndex := s.currentIndex + 1
                     squares := (revealStep s).squares } := by
          unfold on_draw
          rw [if_neg (by simp only [revealStep]; omega)]
          rfl
        rw [hstep]
        have := ih { s with currentIndex := s.currentIndex + 1
                            squares := (revealStep s).squares }
          (by omega) (by simp; omega) (by simp; omega)
        simpa using this

/-- C4: from the starting observable state (index 0, all squares hidden),
calling the tick step exactly `len(sequence)` times returns the engine to
exactly that state, without rebuilding the sequence. -/
theorem c4_cycle_reset : ∀ s : EngineState, s.currentIndex = 0 →
    s.squares = drawSquares s.N → 0 < s.data.length →
    on_draw^[s.data.length] s = s := by
  intro s h0 hsq hlen
  have := on_draw_cycle s.data.length s hlen (by omega) (by omega)
  rw [this]
  cases s
  simp only at h0 hsq
  subst h0
  rw [hsq]

/-- Witness for C4 at the concrete fresh configuration of size 1. -/
theorem c4_cycle_reset_witness :
    on_draw^[(freshState 1).data.length] (freshState 1) = freshState 1 :=
  c4_cycle_reset (freshState 1) rfl rfl (by decide)

/-- C6: a key press whose resulting size (`symbol - 39`, always in the clamp
range `[10, 18]` for the digit keys) equals the current size is a no-op:
the index, squares and sequence are all untouched. -/
theorem c6_resize_noop : ∀ (s : EngineState) symbol, 49 ≤ symbol → symbol ≤ 57 →
    symbol - 39 = s.N → on_key_press symbol s = s := by
  intro s symbol h1 h2 h3
  unfold on_key_press
  rw [if_neg]
  rintro ⟨_, _, hne⟩
  exact hne h3

/-- Witness for C6: pressing the 1 key (symbol 49, size 10) while the size
is already 10 changes nothing, even mid-animation. -/
theorem c6_resize_noop_witness :
    on_key_press 49 ⟨10, PADDING, 3, []⟩ = ⟨10, PADDING, 3, []⟩ :=
  c6_resize_noop ⟨10, PADDING, 3, []⟩ 49 (by decide) (by decide) rfl

/-- C7: digit key `d` (symbol `48 + d`) maps to grid size `d + 9`, so the
attainable sizes are exactly 10..18; when that size differs from the current
one, the handler installs the fresh state: sequence
`primeSieve(size² + 1) ++ 35 pause markers`, index 0, all squares hidden. -/
theorem c7_key_mapping : ∀ (s : EngineState) d, 1 ≤ d → d ≤ 9 →
    ((48 + d) - 39 = d + 9) ∧ 10 ≤ d + 9 ∧ d + 9 ≤ 18 ∧
    (d + 9 ≠ s.N → on_key_press (48 + d) s = freshState (d + 9)) := by
  intro s d h1 h9
  refine ⟨by omega, by omega, by omega, ?_⟩
  intro hne
  unfold on_key_press freshState
  rw [if_pos ⟨by omega, by omega, by omega⟩]
  have : 48 + d - 39 = d + 9 := by omega
  rw [this]

/-- Witness for C7: pressing the 1 key while the grid has size 11 rebuilds
the engine at size 10. -/
theorem c7_key_mapping_witness :
    ((48 + 1) - 39 = 1 + 9) ∧ 10 ≤ 1 + 9 ∧ 1 + 9 ≤ 18 ∧
    on_key_press (48 + 1) ⟨11, [], 0, []⟩ = freshState (1 + 9) := by
  have h := c7_key_mapping ⟨11, [], 0, []⟩ 1 (by decide) (by decide)
  exact ⟨h.1, h.2.1, h.2.2.1, h.2.2.2 (by decide)⟩

/-- Folding the reveal updates of a list of emissions over a square list
(the squares after processing those emissions in order). -/
def processList (sq : List Square) (L : List (Nat × Kind)) : List Square :=
  L.foldl (fun acc e => acc.set (e.1 - 1) ⟨true, colorOf e.2⟩) sq

/-- Processing emissions never changes the number of squares. -/
lemma processList_length : ∀ (L : List (Nat × Kind)) (sq : List Square),
    (processList sq L).length = sq.length := by
  intro L
  induction L with
  | nil => intro sq; rfl
  | cons e L ih =>
      intro sq
      unfold processList at ih ⊢
      rw [List.foldl_cons, ih, List.length_set]

/-- Unfolding one step of `processList`. -/
lemma processList_cons (sq : List Square) (e : Nat × Kind) (L : List (Nat × Kind)) :
    processList sq (e :: L) = processList (sq.set (e.1 - 1) ⟨true, colorOf e.2⟩) L := rfl

/-- A square that is already visible stays visible under processing. -/
lemma processList_visible_mono : ∀ (L : List (Nat × Kind)) (sq : List Square) c d,
    (sq.getD c d).visible = true → ((processList sq L).getD c d).visible = true := by
  intro L
  induction L with
  | nil => intro sq c d h; exact h
  | cons e L ih =>
      intro sq c d h
      rw [processList_cons]
      refine ih _ c d ?_
      by_cases hc : e.1 - 1 = c
      · subst hc
        by_cases hlen : e.1 - 1 < sq.length
        · rw [List.getD_eq_getElem?_getD, List.getElem?_set_self (by omega)]
          rfl
        · rw [List.set_eq_of_length_le (by omega)]
          exact h
      · rw [List.getD_eq_getElem?_getD, List.getElem?_set_ne hc,
          ← List.getD_eq_getElem?_getD]
        exact h

/-- If some emission in the list targets cell `c` (its value is `c + 1`),
that cell is visible after processing. -/
lemma processList_visible_of_mem : ∀ (L : List (Nat × Kind)) (sq : List Square) c d,
    c < sq.length → (c + 1) ∈ L.map Prod.fst →
    ((processList sq L).getD c d).visible = true := by
  intro L
  induction L with
  | nil => intro sq c d _ h; simp at h
  | cons e L ih =>
      intro sq c d hlen h
      rw [List.map_cons, List.mem_cons] at h
      rw [processList_cons]
      by_cases he : e.1 - 1 = c
      · subst he
        refine processList_visible_mono L _ _ d ?_
        rw [List.getD_eq_getElem?_getD, List.getElem?_set_self (by omega)]
        rfl
      · rcases h with h | h
        · omega
        · exact ih _ c d (by rw [List.length_set]; exact hlen) h

/-- Processing emissions that never target cell `c` (all values at least 1
and different from `c + 1`) leaves cell `c` untouched. -/
lemma processList_untouched : ∀ (L : List (Nat × Kind)) (sq : List Square) c d,
    (∀ e ∈ L, 1 ≤ e.1 ∧ e.1 ≠ c + 1) →
    (processList sq L).getD c d = sq.getD c d := by
  intro L
  induction L with
  | nil => intro sq c d _; rfl
  | cons e L ih =>
      intro sq c d h
      rw [processList_cons]
      have he := h e (List.mem_cons_self e L)
      have hne : e.1 - 1 ≠ c := by omega
      rw [ih _ c d (fun x hx => h x (List.mem_cons_of_mem e hx))]
      rw [List.getD_eq_getElem?_getD, List.getElem?_set_ne hne,
        ← List.getD_eq_getElem?_getD]

/-- Setting a cell to the value it already holds leaves the list unchanged. -/
lemma set_getD_self : ∀ (l : List Square) i a d, i < l.length →
    l.getD i d = a → l.set i a = l := by
  intro l
  induction l with
  | nil => intro i a d h; simp at h
  | cons x l ih =>
      intro i a d hlen hget
      cases i with
      | zero =>
          simp only [List.getD_cons_zero] at hget
          rw [List.set_cons_zero, hget]
      | succ i =>
          simp only [List.getD_cons_succ] at hget
          rw [List.set_cons_succ, ih i a d (by simpa using hlen) hget]

/-- Extending a processed prefix by one entry. -/
lemma processList_take_succ (sq : List Square) (data : List (Nat × Kind)) (k : Nat)
    (hk : k < data.length) :
    processList sq (data.take (k + 1)) =
      (processList sq (data.take k)).set ((data.getD k (0, Kind.C)).1 - 1)
        ⟨true, colorOf (data.getD k (0, Kind.C)).2⟩ := by
  rw [List.take_succ, List.getElem?_eq_getElem hk]
  simp only [Option.toList_some]
  unfold processList
  rw [List.foldl_append]
  simp only [List.foldl_cons, List.foldl_nil]
  rw [List.getD_eq_getElem?_getD, List.getElem?_eq_getElem hk]
  rfl

/-- Iterating the tick step `k < len(data)` times from index 0 reaches index
`k` with the first `k` emissions processed, leaving `N` and `data` alone (no
reset fires on the way). -/
lemma on_draw_iter_lt : ∀ k (s : EngineState), s.currentIndex = 0 →
    k < s.data.length →
    on_draw^[k] s = ⟨s.N, s.data, k, processList s.squares (s.data.take k)⟩ := by
  intro k
  induction k with
  | zero =>
      intro s h0 _
      simp only [Function.iterate_zero, id_eq]
      cases s
      simp only at h0 ⊢
      subst h0
      rfl
  | succ k ih =>
      intro s h0 hk
      rw [Function.iterate_succ_apply', ih s h0 (by omega)]
      unfold on_draw revealStep
      simp only
      rw [if_neg (by omega)]
      rw [processList_take_succ s.squares s.data k (by omega)]

/-- The sequence built by a fresh configuration, split at the real prefix:
the entry at index `len(real) + k` is the padding pair `(1, C)`. -/
lemma freshState_data_getD (N k : Nat) (hk : k < 35) :
    (freshState N).data.getD ((primeSieve (N ^ 2 + 1)).length + k) (0, Kind.C)
      = (1, Kind.C) := by
  show ((primeSieve (N ^ 2 + 1)) ++ PADDING).getD _ _ = _
  rw [List.getD_eq_getElem?_getD, List.getElem?_append_right (by omega)]
  have : (primeSieve (N ^ 2 + 1)).length + k - (primeSieve (N ^ 2 + 1)).length = k := by
    omega
  rw [this]
  show (List.replicate TIME_AFTER_COMPLETION ((1 : Nat), Kind.C))[k]?.getD _ = _
  rw [List.getElem?_replicate]
  rw [if_pos (by simpa [TIME_AFTER_COMPLETION] using hk)]
  rfl

/-- Every emission of `primeSieve` has value at least 1, and only the leading
`(1, C)` has value 1. -/
lemma primeSieve_tail_ge_two : ∀ LIMIT e,
    e ∈ sieveLoop LIMIT 0 [] (LIMIT - 2) → 1 ≤ e.1 ∧ e.1 ≠ 1 := by
  intro LIMIT e he
  have := sieveLoop_range (LIMIT - 2) LIMIT 0 [] e.1 e.2 he
  omega

/-- After processing the full real sequence, cell 0 (the cell of value 1)
holds exactly the revealed-composite state `(visible, LIGHT_BLUE)`. -/
lemma processed_cell_zero (N : Nat) (_h1 : 1 ≤ N) (d : Square) :
    (processList (drawSquares N) (primeSieve (N ^ 2 + 1))).getD 0 d
      = ⟨true, LIGHT_BLUE⟩ := by
  have hlen : 1 ≤ (drawSquares N).length := by
    unfold drawSquares
    rw [List.length_replicate]
    exact Nat.one_le_pow 2 N (by omega)
  show (processList (drawSquares N) ((1, Kind.C) :: sieveLoop (N ^ 2 + 1) 0 []
    (N ^ 2 + 1 - 2))).getD 0 d = _
  rw [processList_cons]
  rw [processList_untouched _ _ 0 d
    (fun e he => primeSieve_tail_ge_two (N ^ 2 + 1) e he)]
  simp only
  rw [List.getD_eq_getElem?_getD, List.getElem?_set_self (by omega)]
  rfl

/-- After processing the full real sequence every cell of the grid is
visible. -/
lemma processed_all_visible (N : Nat) (_h1 : 1 ≤ N) (c : Nat) (hc : c < N ^ 2)
    (d : Square) :
    ((processList (drawSquares N) (primeSieve (N ^ 2 + 1))).getD c d).visible
      = true := by
  refine processList_visible_of_mem _ _ c d ?_ ?_
  · unfold drawSquares
    rw [List.length_replicate]
    exact hc
  · exact primeSieve_covers (N ^ 2 + 1) (by nlinarith) (c + 1) (by omega) (by omega)

/-- Processing any number of padding entries on top of the fully processed
grid is the identity: the pad entry `(1, C)` re-reveals cell 0 with the color
it already has. -/
lemma processList_pad_id (N : Nat) (h1 : 1 ≤ N) : ∀ k,
    processList (processList (drawSquares N) (primeSieve (N ^ 2 + 1)))
      (List.replicate k (1, Kind.C))
      = processList (drawSquares N) (primeSieve (N ^ 2 + 1)) := by
  intro k
  induction k with
  | zero => rfl
  | succ k ih =>
      rw [List.replicate_succ, processList_cons]
      have hset : (processList (drawSquares N) (primeSieve (N ^ 2 + 1))).set 0
          ⟨true, colorOf Kind.C⟩
          = processList (drawSquares N) (primeSieve (N ^ 2 + 1)) := by
        refine set_getD_self _ 0 _ ⟨false, LIGHT_BLUE⟩ ?_ ?_
        · rw [processList_length]
          unfold drawSquares
          rw [List.length_replicate]
          exact Nat.one_le_pow 2 N (by omega)
        · rw [processed_cell_zero N h1]
          rfl
      simp only at hset ⊢
      rw [hset, ih]

/-- Processing a concatenation processes the two parts in order. -/
lemma processList_append (sq : List Square) (l1 l2 : List (Nat × Kind)) :
    processList sq (l1 ++ l2) = processList (processList sq l1) l2 := by
  unfold processList
  rw [List.foldl_append]

/-- The fresh sequence has the length of the real emissions plus the 35
padding entries. -/
lemma freshState_data_length (N : Nat) :
    (freshState N).data.length = (primeSieve (N ^ 2 + 1)).length + 35 := by
  show ((primeSieve (N ^ 2 + 1)) ++ PADDING).length = _
  rw [List.length_append]
  rfl

/-- During the padding region (tick `len(real) + k`, `k < 35`) the engine
sits at that index with the fully processed grid: the padding ticks have not
changed the squares. -/
lemma freshState_pad_state (N : Nat) (k : Nat) (hk : k < 35) :
    on_draw^[(primeSieve (N ^ 2 + 1)).length + k] (freshState N)
      = ⟨N, (freshState N).data, (primeSieve (N ^ 2 + 1)).length + k,
          processList (drawSquares N) (primeSieve (N ^ 2 + 1))⟩ := by
  have hlen := freshState_data_length N
  rw [on_draw_iter_lt _ _ rfl (by omega)]
  have htake : (freshState N).data.take ((primeSieve (N ^ 2 + 1)).length + k)
      = primeSieve (N ^ 2 + 1) ++ List.replicate k (1, Kind.C) := by
    show ((primeSieve (N ^ 2 + 1)) ++ PADDING).take _ = _
    rw [List.take_append]
    congr 1
    show (List.replicate TIME_AFTER_COMPLETION ((1 : Nat), Kind.C)).take k = _
    rw [List.take_replicate]
    congr 1
    simp only [TIME_AFTER_COMPLETION]
    omega
  rw [show (freshState N).squares = drawSquares N from rfl, htake, processList_append]
  by_cases h1 : 1 ≤ N
  · rw [processList_pad_id N h1 k]
    rfl
  · have hN : N = 0 := by omega
    subst hN
    have hnil : drawSquares 0 = [] := rfl
    have : ∀ (L : List (Nat × Kind)), processList [] L = [] := by
      intro L
      induction L with
      | nil => rfl
      | cons e L ih => rw [processList_cons]; simpa using ih
    rw [hnil, this, this]
    rfl

/-- C5: once `currentIndex` reaches the pause-marker region every grid cell
is already revealed, the squares stay identical through the padding region,
and processing a pause-marker entry leaves the revealed squares unchanged
(pause markers have no visible effect). -/
theorem c5_pause_markers : ∀ N, 1 ≤ N →
    (∀ c, c < N ^ 2 →
      (((on_draw^[(primeSieve (N ^ 2 + 1)).length] (freshState N)).squares.getD c
        ⟨false, LIGHT_BLUE⟩).visible = true)) ∧
    (∀ k, k < 35 →
      ((on_draw^[(primeSieve (N ^ 2 + 1)).length + k] (freshState N)).squares
        = (on_draw^[(primeSieve (N ^ 2 + 1)).length] (freshState N)).squares ∧
      (revealStep (on_draw^[(primeSieve (N ^ 2 + 1)).length + k]
        (freshState N))).squares
        = (on_draw^[(primeSieve (N ^ 2 + 1)).length + k] (freshState N)).squares)) := by
  intro N h1
  have h0 := freshState_pad_state N 0 (by omega)
  rw [Nat.add_zero] at h0
  constructor
  · intro c hc
    rw [h0]
    exact processed_all_visible N h1 c hc _
  · intro k hk
    have hks := freshState_pad_state N k hk
    constructor
    · rw [hks, h0]
    · rw [hks]
      unfold revealStep
      simp only
      rw [freshState_data_getD N k hk]
      simp only
      rw [show colorOf Kind.C = LIGHT_BLUE from rfl]
      refine set_getD_self _ (1 - 1) _ ⟨false, LIGHT_BLUE⟩ ?_ ?_
      · rw [processList_length]
        unfold drawSquares
        rw [List.length_replicate]
        exact Nat.one_le_pow 2 N (by omega)
      · rw [show (1 : Nat) - 1 = 0 from rfl, processed_cell_zero N h1]

/-- Witness for C5 at grid size 1: the single cell is revealed after the real
sequence, and the first pause tick leaves the squares unchanged. -/
theorem c5_pause_markers_witness :
    (((on_draw^[(primeSieve (1 ^ 2 + 1)).length] (freshState 1)).squares.getD 0
      ⟨false, LIGHT_BLUE⟩).visible = true) ∧
    (revealStep (on_draw^[(primeSieve (1 ^ 2 + 1)).length + 0]
      (freshState 1))).squares
      = (on_draw^[(primeSieve (1 ^ 2 + 1)).length + 0] (freshState 1)).squares :=
  ⟨(c5_pause_markers 1 (by decide)).1 0 (by decide),
    ((c5_pause_markers 1 (by decide)).2 0 (by decide)).2⟩

/-- Loop body of `drawNumbers` in src/sieve.py, restricted to the coordinate
dictionary it returns (label drawing has no observable state).  Pixel
coordinates are kept in cell-width units: the window is square, so
`height = N` cells and `width / N = 1` cell.  For each `number` the loop
records `coordinate_info[number] = (x_coord, y_coord - 1)` with
`x_coord = (number - 1) % N`, and decrements the running `y_coord` after
each completed row (`if number % N == 0`), starting from `y_coord = N`
(the window height).  Arguments: grid size `N`, current `number`, remaining
iteration count, current `y_coord`. -/
def drawNumbersGo (N : Nat) : Nat → Nat → Nat → List (Nat × (Nat × Nat))
  | _, 0, _ => []
  | number, count + 1, y =>
      (number, ((number - 1) % N, y - 1)) ::
        drawNumbersGo N (number + 1) count (if number % N = 0 then y - 1 else y)

/-- The coordinate dictionary `drawNumbers` builds: entries for numbers
`1 .. N²`, starting at `y_coord = N` cell units (the window height). -/
def drawNumbersInfo (N : Nat) : List (Nat × (Nat × Nat)) :=
  drawNumbersGo N 1 (N ^ 2) N

/-- Dictionary lookup on the association list of coordinates. -/
def infoFind : List (Nat × (Nat × Nat)) → Nat → Option (Nat × Nat)
  | [], _ => none
  | e :: rest, v => if e.1 = v then some e.2 else infoFind rest v

/-- The pure coordinate mapping the rendering layer exposes: the square of
`value` sits at column `x` and, since the pyglet y axis points up and the
recorded y coordinate is the lower edge of the cell in cell units, at row
`N - 1 - y` counted from the top of the window. -/
def cellPosition (N v : Nat) : Option (Nat × Nat) :=
  match infoFind (drawNumbersInfo N) v with
  | some (x, y) => some (N - 1 - y, x)
  | none => none

/-- Characterization of the coordinate loop: if the entry `y_coord` obeys the
loop invariant `y = N - (number - 1) / N`, the recorded coordinate of every
covered value `v` is `((v - 1) % N, N - 1 - (v - 1) / N)`. -/
lemma drawNumbersGo_find (N : Nat) (hN : 1 ≤ N) : ∀ count number y v,
    1 ≤ number → number + count ≤ N ^ 2 + 1 → y = N - (number - 1) / N →
    number ≤ v → v < number + count →
    infoFind (drawNumbersGo N number count y) v
      = some ((v - 1) % N, N - 1 - (v - 1) / N) := by
  intro count
  induction count with
  | zero => intro number y v _ _ _ h4 h5; omega
  | succ count ih =>
      intro number y v h1 h2 h3 h4 h5
      rw [drawNumbersGo]
      have hdivlt : (number - 1) / N < N := by
        rw [Nat.div_lt_iff_lt_mul (by omega)]
        have : N ^ 2 = N * N := by ring
        omega
      by_cases hv : number = v
      · subst hv
        unfold infoFind
        rw [if_pos rfl]
        have : y - 1 = N - 1 - (number - 1) / N := by omega
        rw [this]
      · unfold infoFind
        rw [if_neg hv]
        have hsucc : number / N = (number - 1) / N + if N ∣ number then 1 else 0 := by
          have heq : number - 1 + 1 = number := by omega
          have := Nat.succ_div (number - 1) N
          rw [heq] at this
          exact this
        refine ih (number + 1) (if number % N = 0 then y - 1 else y) v (by omega)
          (by omega) ?_ (by omega) (by omega)
        have he : number + 1 - 1 = number := by omega
        rw [he]
        by_cases hm0 : number % N = 0
        · have hdvd : N ∣ number := Nat.dvd_of_mod_eq_zero hm0
          rw [if_pos hm0]
          rw [if_pos hdvd] at hsucc
          generalize hq : (number - 1) / N = q at h3 hdivlt hsucc
          omega
        · have hdvd : ¬ N ∣ number := by
            intro hd
            exact hm0 (Nat.mod_eq_zero_of_dvd hd)
          rw [if_neg hm0]
          rw [if_neg hdvd] at hsucc
          generalize hq : (number - 1) / N = q at h3 hdivlt hsucc
          omega

/-- C8: the cell mapping is row-major with no hidden state: for every value
in `[1, size²]`, `cellPosition` returns
`((value - 1) / size, (value - 1) % size)` (row from the top, column). -/
theorem c8_cell_position : ∀ N v, 1 ≤ N → 1 ≤ v → v ≤ N ^ 2 →
    cellPosition N v = some ((v - 1) / N, (v - 1) % N) := by
  intro N v hN h1 h2
  unfold cellPosition drawNumbersInfo
  rw [drawNumbersGo_find N hN (N ^ 2) 1 N v (by omega) (by omega)
    (by simp) (by omega) (by omega)]
  have hdivlt : (v - 1) / N < N := by
    rw [Nat.div_lt_iff_lt_mul (by omega)]
    have h : N ^ 2 = N * N := by ring
    omega
  have key : N - 1 - (N - 1 - (v - 1) / N) = (v - 1) / N := by
    generalize (v - 1) / N = q at hdivlt ⊢
    omega
  show some (N - 1 - (N - 1 - (v - 1) / N), (v - 1) % N)
    = some ((v - 1) / N, (v - 1) % N)
  rw [key]

/-- Witness for C8: the four mapped corners of the default 10 by 10 grid. -/
theorem c8_cell_position_witness :
    cellPosition 10 1 = some (0, 0) ∧ cellPosition 10 10 = some (0, 9) ∧
    cellPosition 10 11 = some (1, 0) ∧ cellPosition 10 100 = some (9, 9) :=
  ⟨by simpa using c8_cell_position 10 1 (by decide) (by decide) (by decide),
    by simpa using c8_cell_position 10 10 (by decide) (by decide) (by decide),
    by simpa using c8_cell_position 10 11 (by decide) (by decide) (by decide),
    by simpa using c8_cell_position 10 100 (by decide) (by decide) (by decide)⟩

/-- The launch-time clamp of the window dimension:
`DIMENSIONS = min(max(800, args['dimensions'][0]), 2000)`, with argparse
default 800. -/
def DIMENSIONS (input : Int) : Int := min (max 800 input) 2000

/-- The launch-time clamp of the frame rate:
`FRAME_RATE = min(max(10, args['frame_rate'][0]), 40)`, with argparse
default 12. -/
def FRAME_RATE (input : Int) : Int := min (max 10 input) 40

/-- The argparse default for the frame-rate flag. -/
def DEFAULT_FRAME_RATE : Int := 12

/-- The argparse default for the dimensions flag. -/
def DEFAULT_DIMENSIONS : Int := 800

/-- C9: every integer pair of launch parameters is clamped, never rejected:
the effective frame rate always lands in `[10, 40]` (identity there, default
12) and the effective dimension in `[800, 2000]` (identity there, default
800). -/
theorem c9_clamping : ∀ fr dim : Int,
    (10 ≤ FRAME_RATE fr ∧ FRAME_RATE fr ≤ 40) ∧
    (800 ≤ DIMENSIONS dim ∧ DIMENSIONS dim ≤ 2000) ∧
    FRAME_RATE DEFAULT_FRAME_RATE = 12 ∧
    DIMENSIONS DEFAULT_DIMENSIONS = 800 ∧
    (10 ≤ fr → fr ≤ 40 → FRAME_RATE fr = fr) ∧
    (800 ≤ dim → dim ≤ 2000 → DIMENSIONS dim = dim) := by
  intro fr dim
  unfold FRAME_RATE DIMENSIONS DEFAULT_FRAME_RATE DEFAULT_DIMENSIONS
  refine ⟨⟨?_, ?_⟩, ⟨?_, ?_⟩, by decide, by decide, ?_, ?_⟩ <;> omega

/-- Witness for C9: an in-range frame rate is kept, an oversized dimension is
clamped via the bounds. -/
theorem c9_clamping_witness :
    FRAME_RATE 15 = 15 ∧ (800 ≤ DIMENSIONS 2500 ∧ DIMENSIONS 2500 ≤ 2000) :=
  ⟨(c9_clamping 15 2500).2.2.2.2.1 (by decide) (by decide),
    (c9_clamping 15 2500).2.1⟩
